import Mathlib

/-!
Shallow embedding of `changelog.py` (paveldelpozo/changelog-creator).

Strings are modelled as Lean `String`s (lists of characters); Python dicts
(which preserve insertion order and never drop keys on assignment) are
modelled as association lists with in-place update.  The two regular
expressions of the program (`.*(#[\d]+).*` and `.*[\/]{1}v?([\d.]+).*`,
both used through anchored `match` where `.` does not cross a newline and
the leading greedy `.*` selects the rightmost viable occurrence) are
embedded as recursive scans over the first line of the message.
-/

set_option maxRecDepth 4096

namespace Changelog

/-! ## String primitives (Python `in`, `str.replace`, `str.split`, `str.zfill`) -/

/-- `pat` occurs as a contiguous substring of `hay` (Python `pat in hay`). -/
def occursIn (pat : List Char) : List Char → Bool
  | [] => pat.isPrefixOf []
  | c :: t => pat.isPrefixOf (c :: t) || occursIn pat t

/-- Python `pat in hay` on strings. -/
def containsS (hay pat : String) : Bool := occursIn pat.data hay.data

/-- ASCII lower-casing of a string, as used by `re.IGNORECASE` on the
ASCII-only word lists of the program. -/
def lowerS (s : String) : String := ⟨s.data.map Char.toLower⟩

/-- Case-insensitive substring test (`re.compile(pat, re.IGNORECASE).search(hay)`
for a literal `pat`). -/
def containsCI (pat hay : String) : Bool :=
  occursIn (lowerS pat).data (lowerS hay).data

/-- Fuel-driven worker for `str.replace`: left-to-right, non-overlapping.
The fuel is consumed once per emitted position, so `s.length` is enough. -/
def replaceFuel (pat rep : List Char) : Nat → List Char → List Char
  | _, [] => []
  | 0, l => l
  | fuel + 1, c :: t =>
    if !pat.isEmpty && pat.isPrefixOf (c :: t) then
      rep ++ replaceFuel pat rep fuel (t.drop (pat.length - 1))
    else
      c :: replaceFuel pat rep fuel t

/-- Python `s.replace(pat, rep)` for a non-empty `pat`. -/
def replaceAllL (s pat rep : List Char) : List Char :=
  replaceFuel pat rep s.length s

/-- Python `s.replace(pat, rep)` on strings. -/
def replaceS (s pat rep : String) : String :=
  ⟨replaceAllL s.data pat.data rep.data⟩

/-- Python `s.split(sep)` for a one-character separator (keeps empty parts). -/
def splitOnC (sep : Char) : List Char → List (List Char)
  | [] => [[]]
  | c :: t =>
    if c = sep then [] :: splitOnC sep t
    else
      match splitOnC sep t with
      | h :: r => (c :: h) :: r
      | [] => [[c]]

/-- Python `s.zfill(width)`: left-pad with `'0'` up to `width`, keeping a
leading sign in front of the padding. -/
def zfillL (width : Nat) (s : List Char) : List Char :=
  if width ≤ s.length then s
  else
    match s with
    | c :: t =>
      if c = '+' || c = '-' then c :: (List.replicate (width - (t.length + 1)) '0' ++ t)
      else List.replicate (width - (t.length + 1)) '0' ++ (c :: t)
    | [] => List.replicate width '0'

/-- Code-point comparison of character lists: Python `<=` on strings. -/
def lexLe : List Char → List Char → Bool
  | [], _ => true
  | _ :: _, [] => false
  | a :: as, b :: bs =>
    if a.toNat < b.toNat then true
    else if b.toNat < a.toNat then false
    else lexLe as bs

/-- Stable insertion into a sorted list: the new element goes before the
first element it relates to by `le`. -/
def insSorted (le : α → α → Bool) (x : α) : List α → List α
  | [] => [x]
  | y :: t => if le x y then x :: y :: t else y :: insSorted le x t

/-- Stable insertion sort; with a total `le` this reproduces Python
`sorted` (ascending for `≤`-like `le`, descending for `≥`-like `le`). -/
def insSortBy (le : α → α → Bool) : List α → List α
  | [] => []
  | x :: t => insSorted le x (insSortBy le t)

/-! ## Association lists modelling Python dicts -/

/-- Key lookup in an insertion-ordered association list. -/
def lookupA (l : List (String × β)) (k : String) : Option β :=
  match l with
  | [] => none
  | (k', v) :: t => if k' = k then some v else lookupA t k

/-- Python dict assignment `d[k] = v`: replace in place, else append. -/
def insertA (l : List (String × β)) (k : String) (v : β) : List (String × β) :=
  match l with
  | [] => [(k, v)]
  | (k', v') :: t => if k' = k then (k, v) :: t else (k', v') :: insertA t k v

/-- The keys of an association list, in insertion order (Python dict iteration). -/
def keysA (l : List (String × β)) : List String := l.map Prod.fst

/-- Lookup with default `[]`, for accesses that cannot fail. -/
def lookupD (l : List (String × List β)) (k : String) : List β :=
  (lookupA l k).getD []

/-! ## Program constants (`SKIP_WORDS`, `VERSION_WORDS`, the replacement chain) -/

def SKIP_WORDS : List String :=
  ["utd", "wip", "wtf", "formater", "set version", "App version", "new version", "init", "ver:"]

def VERSION_WORDS : List String := ["merge branch", "merge tag", "pull", "merge"]

/-- `re.compile('|'.join(SKIP_WORDS), re.IGNORECASE).search(msg)`: the words
are literals, so this is a case-insensitive substring test. -/
def skipRe (msg : String) : Bool := SKIP_WORDS.any (fun w => containsCI w msg)

/-- `re.compile('|'.join(VERSION_WORDS), re.IGNORECASE).search(msg)`. -/
def versionRe (msg : String) : Bool := VERSION_WORDS.any (fun w => containsCI w msg)

/-- The ordered chain of `str.replace` calls of `parse_message`. -/
def REPLACEMENTS : List (String × String) :=
  [("add ", "Add: "), ("add:", "Add:"), ("Add ", "Add: "),
   ("fea ", "Feature: "), ("fea:", "Feature:"), ("Fea ", "Feature: "),
   ("Fea:", "Feature:"), ("fea?", "Feature: "), ("feature ", "Feature: "),
   ("fix ", "Fix: "), ("fix:", "Fix:"), ("Fix ", "Fix: "),
   ("ref ", "Refactor: "), (" ref ", "Refactor: "), ("Ref:", "Refactor:"),
   ("refactor ", "Refactor: "), ("Refactor ", "Refactor: "),
   ("rfc ", "Refactor: "), ("rfc:", "Refactor:"),
   ("rft ", "Refactor: "), ("rft:", "Refactor:"), ("Rft:", "Refactor:"),
   ("enh ", "Enhancement: "), ("Enh ", "Enhancement: "),
   ("enh:", "Enhancement:"), ("Enh:", "Enhancement:"),
   ("enhancement ", "Enhancement:"), ("Enhancement ", "Enhancement:")]

/-- Apply the replacement chain in order. -/
def applyReplacements (s : String) : String :=
  REPLACEMENTS.foldl (fun acc p => replaceS acc p.1 p.2) s

/-! ## The two regular expressions -/

/-- In Python `re`, `.` does not match a newline and `match` is anchored at
the start, so both patterns only ever see the first line of the message. -/
def firstLine (l : List Char) : List Char := l.takeWhile (fun c => c != '\n')

/-- One step of `.*(#[\d]+).*`: a token (`#` followed by a digit) starts
at the current position. -/
def tokenHereB : List Char → Bool
  | c :: d :: _ => c == '#' && d.isDigit
  | _ => false

/-- Rightmost `#`-digits token of a line, with its maximal digit run: the
capture of `re.match(".*(#[\d]+).*", line)` (the leading greedy `.*`
backtracks from the right). -/
def issueScan : List Char → Option (List Char)
  | [] => none
  | c :: rest =>
    match issueScan rest with
    | some r => some r
    | none =>
      if tokenHereB (c :: rest) then some (c :: rest.takeWhile Char.isDigit) else none

/-- The captured issue token of `parse_message`, if any. -/
def issueCapture (msg : String) : Option String :=
  (issueScan (firstLine msg.data)).map (fun l => ⟨l⟩)

/-- Some position of the line starts a `#`-digits token. -/
def hasTokenB : List Char → Bool
  | [] => false
  | c :: rest => tokenHereB (c :: rest) || hasTokenB rest

def isDigitDot (c : Char) : Bool := c.isDigit || c == '.'

/-- The capture attempt of `[\/]{1}v?([\d.]+)` just after a slash: an
optional `v`, then at least one digit or dot (maximal run). -/
def captureAt : List Char → Option (List Char)
  | 'v' :: rest =>
    match rest with
    | d :: _ => if isDigitDot d then some (rest.takeWhile isDigitDot) else none
    | [] => none
  | c :: rest => if isDigitDot c then some ((c :: rest).takeWhile isDigitDot) else none
  | [] => none

/-- Rightmost viable slash of the line (the leading greedy `.*` of
`.*[\/]{1}v?([\d.]+).*` backtracks from the right). -/
def releaseScan : List Char → Option (List Char)
  | [] => none
  | c :: rest =>
    match releaseScan rest with
    | some r => some r
    | none => if c = '/' then captureAt rest else none

/-- The capture of `re.match(".*[\/]{1}v?([\d.]+).*", msg)`, if any. -/
def releaseCapture (msg : String) : Option String :=
  (releaseScan (firstLine msg.data)).map (fun l => ⟨l⟩)

/-! ## `parse_message` -/

/-- `parse_message`: extract the issue token (if the issue regex matches),
remove every occurrence of it, collapse `" :"` into `":"`, append the
`" (Related to issue: ...)"` suffix, then run the replacement chain. -/
def parse_message (msg : String) : String :=
  let body :=
    match issueCapture msg with
    | some issue =>
      replaceS (replaceS msg issue "") " :" ":" ++ " (Related to issue: " ++ issue ++ ")"
    | none => msg
  applyReplacements body

/-! ## `parse_commits` -/

/-- A commit record as consumed from pydriller: message, formatted author
date (`YYYY-MM-DD`), and main-branch membership. -/
structure Commit where
  msg : String
  date : String
  in_main_branch : Bool
  deriving DecidableEq, Repr

/-- `versions[version][date]`: ordered list of message strings per date. -/
abbrev DateBucket := List (String × List String)

/-- The version ledger: version label to date bucket. -/
abbrev Ledger := List (String × DateBucket)

/-- The loop state of `parse_commits`: the current version label and the
ledger built so far. -/
structure PState where
  version : String
  versions : Ledger
  deriving DecidableEq, Repr

/-- Python `msg.split('\n')` as a list of strings. -/
def commitLines (msg : String) : List String :=
  (splitOnC '\n' msg.data).map (fun l => ⟨l⟩)

/-- The message-appending part of the loop body.  In the multi-line branch
the code checks the raw line for membership but appends the parsed line;
in the single-line branch it parses first and checks the parsed message. -/
def appendMessages (msgs : List String) (msg : String) : List String :=
  if containsS msg "\n" then
    (commitLines msg).foldl
      (fun acc line => if acc.contains line then acc else acc ++ [parse_message line]) msgs
  else
    let pm := parse_message msg
    if msgs.contains pm then msgs else msgs ++ [pm]

/-- The release-marker check of the loop body: if the message contains the
literal `"release"` and the release pattern matches, the capture becomes
the current version and a fresh empty entry is installed for it. -/
def versionSwitch (st : PState) (c : Commit) : PState :=
  if containsS c.msg "release" then
    match releaseCapture c.msg with
    | some v => ⟨v, insertA st.versions v []⟩
    | none => st
  else st

/-- The date-bucket part of the loop body, acting on `versions[version]`:
get-or-create the date entry, then append the commit's messages unless it
is a version-marker message. -/
def bucketUpdate (dates : DateBucket) (c : Commit) : DateBucket :=
  let msgs0 := (lookupA dates c.date).getD []
  let dates1 := if (lookupA dates c.date).isSome then dates else insertA dates c.date []
  if versionRe c.msg then dates1
  else insertA dates1 c.date (appendMessages msgs0 c.msg)

/-- One iteration of the `parse_commits` loop.  `none` models a `KeyError`
on `versions[version]` (never reached from the initial state). -/
def stepCommit (st : PState) (c : Commit) : Option PState :=
  if skipRe c.msg || !c.in_main_branch then some st
  else
    let st1 : PState := versionSwitch st c
    match lookupA st1.versions st1.version with
    | none => none
    | some dates =>
      some ⟨st1.version, insertA st1.versions st1.version (bucketUpdate dates c)⟩

/-- Fold the loop over the commit list. -/
def go (st : PState) : List Commit → Option PState
  | [] => some st
  | c :: cs =>
    match stepCommit st c with
    | none => none
    | some st' => go st' cs

/-- The initial loop state: current version `"0.0.0"`, ledger `{"0.0.0": {}}`. -/
def initState : PState := ⟨"0.0.0", [("0.0.0", [])]⟩

/-- `parse_commits` over an already-fetched commit list. -/
def parse_commits (commits : List Commit) : Option Ledger :=
  (go initState commits).map PState.versions

/-- The contribution a single non-skipped commit makes to a freshly created
date bucket (empty for version-marker messages). -/
def commitMessages (c : Commit) : List String :=
  if versionRe c.msg then [] else appendMessages [] c.msg

/-- A commit that switches the current version: non-skipped, on the main
branch, message containing `"release"`, and the release pattern matching. -/
def isMarker (c : Commit) : Bool :=
  !skipRe c.msg && c.in_main_branch && containsS c.msg "release"
    && (releaseCapture c.msg).isSome

/-! ## `get_version` and rendering -/

/-- `get_version`: normalised sort key of a version label. -/
def get_version (elem : String) : String :=
  let version := splitOnC '.' elem.data
  let major := version.getD 0 ['0']
  let minor := version.getD 1 ['0']
  let patch := version.getD 2 ['0']
  ⟨zfillL 4 major ++ '.' :: zfillL 4 minor ++ '.' :: zfillL 4 patch⟩

/-- Spec-side key: split the label on `.`, take up to three components
with missing components defaulting to `"0"`, zero-pad each to 4, and join
the fixed-width triple. -/
def specVersionKey (label : String) : String :=
  let comps := splitOnC '.' label.data
  let padded := ((comps ++ [['0'], ['0'], ['0']]).take 3).map (zfillL 4)
  ⟨(padded.intersperse ['.']).flatten⟩

/-- `sorted(versions, reverse=True, key=get_version)`: stable descending
sort of the ledger keys by the normalised key. -/
def verLe (a b : String) : Bool := lexLe (get_version b).data (get_version a).data

/-- The order in which versions are rendered. -/
def renderOrder (versions : Ledger) : List String := insSortBy verLe (keysA versions)

/-- `sorted(dates, reverse=True)`. -/
def dateDescLe (a b : String) : Bool := lexLe b.data a.data

/-- `sorted(messages)`. -/
def msgAscLe (a b : String) : Bool := lexLe a.data b.data

/-- One date section of the date-grouped `print_md_commits`, threading the
`(output, last_date)` pair exactly as the code does: `last_date = d` is
assigned before the emptiness test. -/
def mdDateSection (dates : DateBucket) (p : String × String) (d : String) : String × String :=
  let messages := lookupD dates d
  let last_date := d
  if messages.length > 0 then
    (p.1 ++ "\n### Date: " ++ d ++ "\n"
      ++ String.join ((insSortBy msgAscLe messages).map (fun m => "    - " ++ m ++ "\n")),
     last_date)
  else
    (p.1 ++ "\n### Date: " ++ last_date ++ "\n" ++ "    - Bugfixes and improvements\n",
     last_date)

/-- One version section of `print_md_commits`. -/
def mdVersionSection (versions : Ledger) (date_group : Bool)
    (p : String × String) (v : String) : String × String :=
  let dates := lookupD versions v
  let p1 : String × String := (p.1 ++ "\n## Version " ++ v ++ "\n", p.2)
  if date_group then
    (insSortBy dateDescLe (keysA dates)).foldl (mdDateSection dates) p1
  else
    let combined := (insSortBy dateDescLe (keysA dates)).foldl
      (fun acc d => acc ++ lookupD dates d) []
    if combined.length ≠ 0 then
      (p1.1 ++ String.join ((insSortBy msgAscLe combined).map (fun m => "  - " ++ m ++ "\n")),
       p1.2)
    else
      (p1.1 ++ "  - Bugfixes and improvements\n", p1.2)

/-- The full console output of `print_md_commits` (each `print` call ends
its line with a newline). -/
def print_md_commits (name : String) (versions : Ledger) (date_group : Bool) : String :=
  ((renderOrder versions).foldl (mdVersionSection versions date_group)
    ("# " ++ name ++ "\n", "")).1

/-! ## `write_md_commits` as a sequence of `f.write` chunks, and errors -/

/-- The chunks one date contributes to the file sink (date-grouped mode). -/
def mdWriteDateChunks (dates : DateBucket) (d : String) : List String :=
  let messages := lookupD dates d
  if messages.length > 0 then
    ("\n### Date: " ++ d) :: (insSortBy msgAscLe messages).map (fun m => "\n    - " ++ m)
  else
    ["\n### Date: " ++ d, "\n    - Bugfixes and improvements"]

/-- The successive arguments of the `f.write` calls of `write_md_commits`,
in order. -/
def writeChunks (name : String) (versions : Ledger) (date_group : Bool) : List String :=
  ("# " ++ name) :: ((renderOrder versions).map (fun v =>
    let dates := lookupD versions v
    ("\n## Version " ++ v) ::
    (if date_group then
      ((insSortBy dateDescLe (keysA dates)).map (mdWriteDateChunks dates)).flatten
    else
      let combined := (insSortBy dateDescLe (keysA dates)).foldl
        (fun acc d => acc ++ lookupD dates d) []
      if combined.length ≠ 0 then
        (insSortBy msgAscLe combined).map (fun m => "\n  - " ++ m)
      else
        ["\n  - Bugfixes and improvements"]))).flatten

/-- File contents after `open(output, "w")` (which truncates the previous
contents at once) followed by `k` successful `f.write` calls before a
failure: the previous contents are gone and exactly the first `k` chunks
remain. -/
def fileAfterFailure (_previous : String) (chunks : List String) (k : Nat) : String :=
  String.join (chunks.take k)

def appName : String := "GIT ChangeLog Creator"
def formatFail : String := "\x1b[91m"
def formatEndc : String := "\x1b[0m"

/-- `log_exception`: one critical message, then `sys.exit(1)` — the `code`
parameter is ignored, every error exits with status 1.  Result: exit
status and the list of emitted critical messages. -/
def log_exception (msg : String) (code : Nat) : Nat × List String :=
  let _ := code
  (1, [formatFail ++ appName ++ ": " ++ msg ++ formatEndc])

/-! ## Association-list lemmas -/

theorem lookupA_insertA_self (l : List (String × β)) (k : String) (v : β) :
    lookupA (insertA l k v) k = some v := by
  induction l with
  | nil => simp [insertA, lookupA]
  | cons p t ih =>
    obtain ⟨k₁, v₁⟩ := p
    by_cases h : k₁ = k
    · simp [insertA, h, lookupA]
    · simp [insertA, h, lookupA, ih]

theorem lookupA_insertA_ne (l : List (String × β)) (k z : String) (v : β)
    (h : k ≠ z) : lookupA (insertA l k v) z = lookupA l z := by
  induction l with
  | nil => simp [insertA, lookupA, h]
  | cons p t ih =>
    obtain ⟨k₁, v₁⟩ := p
    by_cases h₁ : k₁ = k
    · subst h₁; simp [insertA, lookupA, h]
    · simp [insertA, h₁, lookupA, ih]

theorem insertA_insertA (l : List (String × β)) (k : String) (v w : β) :
    insertA (insertA l k v) k w = insertA l k w := by
  induction l with
  | nil => simp [insertA]
  | cons p t ih =>
    obtain ⟨k₁, v₁⟩ := p
    by_cases h : k₁ = k
    · simp [insertA, h]
    · simp [insertA, h, ih]

theorem lookupA_isSome_insertA (l : List (String × β)) (k z : String) (v : β)
    (h : (lookupA l z).isSome = true) :
    (lookupA (insertA l k v) z).isSome = true := by
  by_cases hkz : k = z
  · subst hkz; simp [lookupA_insertA_self]
  · rwa [lookupA_insertA_ne l k z v hkz]

/-! ## Loop-step lemmas -/

theorem stepCommit_skip (st : PState) (c : Commit)
    (h : (skipRe c.msg || !c.in_main_branch) = true) :
    stepCommit st c = some st := by
  simp [stepCommit, h]

theorem versionSwitch_inv (st : PState) (c : Commit)
    (h : (lookupA st.versions st.version).isSome = true) :
    (lookupA (versionSwitch st c).versions (versionSwitch st c).version).isSome = true := by
  unfold versionSwitch
  by_cases hr : containsS c.msg "release"
  · cases hc : releaseCapture c.msg with
    | none => simpa [hr, hc]
    | some v => simp [hr, hc, lookupA_insertA_self]
  · simpa [hr]

theorem stepCommit_some_inv (st : PState) (c : Commit)
    (h : (lookupA st.versions st.version).isSome = true) :
    ∃ st', stepCommit st c = some st' ∧ (lookupA st'.versions st'.version).isSome = true := by
  by_cases hskip : (skipRe c.msg || !c.in_main_branch) = true
  · exact ⟨st, stepCommit_skip st c hskip, h⟩
  · have hinv := versionSwitch_inv st c h
    obtain ⟨dates, hdates⟩ := Option.isSome_iff_exists.mp hinv
    refine ⟨⟨(versionSwitch st c).version,
      insertA (versionSwitch st c).versions (versionSwitch st c).version
        (bucketUpdate dates c)⟩, ?_, ?_⟩
    · simp [stepCommit, hskip, hdates]
    · simp [lookupA_insertA_self]

/-! ## Loop lemmas -/

theorem go_append (st : PState) (l₁ l₂ : List Commit) :
    go st (l₁ ++ l₂) =
      match go st l₁ with
      | none => none
      | some st₁ => go st₁ l₂ := by
  induction l₁ generalizing st with
  | nil => simp [go]
  | cons c t ih =>
    simp only [List.cons_append, go]
    cases stepCommit st c with
    | none => rfl
    | some st₁ => exact ih st₁

theorem go_some_inv (l : List Commit) (st : PState)
    (h : (lookupA st.versions st.version).isSome = true) :
    ∃ st', go st l = some st' ∧ (lookupA st'.versions st'.version).isSome = true := by
  induction l generalizing st with
  | nil => exact ⟨st, rfl, h⟩
  | cons c t ih =>
    obtain ⟨st₁, hstep, hinv₁⟩ := stepCommit_some_inv st c h
    obtain ⟨st₂, hgo, hinv₂⟩ := ih st₁ hinv₁
    exact ⟨st₂, by simp [go, hstep, hgo], hinv₂⟩

theorem initState_inv : (lookupA initState.versions initState.version).isSome = true := by
  decide

theorem go_skip_middle (st : PState) (pre post : List Commit) (c : Commit)
    (h : (skipRe c.msg || !c.in_main_branch) = true) :
    go st (pre ++ c :: post) = go st (pre ++ post) := by
  rw [go_append, go_append]
  cases hgo : go st pre with
  | none => rfl
  | some st₁ => simp [go, stepCommit_skip st₁ c h]

theorem bucketUpdate_nil (c : Commit) :
    bucketUpdate [] c = [(c.date, commitMessages c)] := by
  by_cases h : versionRe c.msg <;>
    simp [bucketUpdate, commitMessages, lookupA, insertA, h]

/-! ## Claim C1 -/

/-- Claim C1: a commit whose message matches one of the skip markers
(case-insensitively) or that is off the primary branch contributes
nothing to the ledger: deleting it from any commit list leaves
`parse_commits` unchanged, so it creates no entry and no date bucket. -/
theorem C1_skipped_commits_contribute_nothing :
    ∀ (pre post : List Commit) (c : Commit),
      skipRe c.msg = true ∨ c.in_main_branch = false →
      parse_commits (pre ++ c :: post) = parse_commits (pre ++ post) := by
  intro pre post c h
  have hb : (skipRe c.msg || !c.in_main_branch) = true := by
    rcases h with h | h <;> simp [h]
  unfold parse_commits
  rw [go_skip_middle initState pre post c hb]

/-- Witness for C1 at a concrete skipped commit. -/
theorem C1_witness :
    (skipRe "wip refactor" = true ∨ (true = false)) ∧
    parse_commits ([⟨"fix a", "2024-01-01", true⟩] ++ ⟨"wip refactor", "2024-01-02", true⟩ :: []) =
      parse_commits ([⟨"fix a", "2024-01-01", true⟩] ++ []) :=
  ⟨Or.inl (by decide),
   C1_skipped_commits_contribute_nothing [⟨"fix a", "2024-01-01", true⟩] []
     ⟨"wip refactor", "2024-01-02", true⟩ (Or.inl (by decide))⟩

/-! ## Claim C2 -/

/-- Claim C2: for a non-skipped main-branch commit whose message contains
the literal `"release"` and whose first line matches the release pattern,
the captured digit-and-dot run `v` becomes the current version and the
ledger entry for `v` is replaced by a fresh bucket holding only this
commit's own contribution; if `"release"` occurs but the pattern does not
match, the current version is unchanged; and a commit with no release
marker never changes the current version, so subsequent commits stay
grouped under the label set by the last marker. -/
theorem C2_release_marker_switches_version :
    (∀ (st : PState) (c : Commit) (v : String),
        skipRe c.msg = false → c.in_main_branch = true →
        containsS c.msg "release" = true → releaseCapture c.msg = some v →
        stepCommit st c = some ⟨v, insertA st.versions v [(c.date, commitMessages c)]⟩)
    ∧ (∀ (st : PState) (c : Commit),
        skipRe c.msg = false → c.in_main_branch = true →
        (lookupA st.versions st.version).isSome = true →
        containsS c.msg "release" = true → releaseCapture c.msg = none →
        ∃ st', stepCommit st c = some st' ∧ st'.version = st.version)
    ∧ (∀ (st st' : PState) (c : Commit),
        containsS c.msg "release" = false ∨ releaseCapture c.msg = none →
        stepCommit st c = some st' → st'.version = st.version) := by
  refine ⟨?_, ?_, ?_⟩
  · intro st c v hskip hmain hrel hcap
    have hvs : versionSwitch st c = ⟨v, insertA st.versions v []⟩ := by
      simp [versionSwitch, hrel, hcap]
    simp [stepCommit, hskip, hmain, hvs, lookupA_insertA_self, bucketUpdate_nil,
      insertA_insertA]
  · intro st c hskip hmain hinv hrel hcap
    have hvs : versionSwitch st c = st := by simp [versionSwitch, hrel, hcap]
    obtain ⟨dates, hdates⟩ := Option.isSome_iff_exists.mp hinv
    exact ⟨⟨st.version, insertA st.versions st.version (bucketUpdate dates c)⟩,
      by simp [stepCommit, hskip, hmain, hvs, hdates], rfl⟩
  · intro st st' c hrel hstep
    cases hskip : skipRe c.msg || !c.in_main_branch with
    | true => rw [stepCommit_skip st c hskip] at hstep; cases hstep; rfl
    | false =>
      have hvs : versionSwitch st c = st := by
        rcases hrel with h | h
        · simp [versionSwitch, h]
        · by_cases hr : containsS c.msg "release" <;> simp [versionSwitch, hr, h]
      simp only [stepCommit, hskip, Bool.false_eq_true, if_false, hvs] at hstep
      cases hlook : lookupA st.versions st.version with
      | none => rw [hlook] at hstep; cases hstep
      | some dates =>
        rw [hlook] at hstep
        cases hstep
        rfl

/-- Witness for C2 at a concrete release-marker commit. -/
theorem C2_witness :
    skipRe "release/1.2.3" = false ∧ containsS "release/1.2.3" "release" = true ∧
    releaseCapture "release/1.2.3" = some "1.2.3" ∧
    stepCommit initState ⟨"release/1.2.3", "2024-01-05", true⟩ =
      some ⟨"1.2.3", insertA initState.versions "1.2.3"
        [("2024-01-05", commitMessages ⟨"release/1.2.3", "2024-01-05", true⟩)]⟩ :=
  ⟨by decide, by decide, by decide,
   C2_release_marker_switches_version.1 initState ⟨"release/1.2.3", "2024-01-05", true⟩
     "1.2.3" (by decide) rfl (by decide) (by decide)⟩

/-! ## Preservation lemmas for the `"0.0.0"` bucket -/

theorem stepCommit_marker (st : PState) (c : Commit) (v : String)
    (hskip : skipRe c.msg = false) (hmain : c.in_main_branch = true)
    (hrel : containsS c.msg "release" = true) (hcap : releaseCapture c.msg = some v) :
    stepCommit st c = some ⟨v, insertA st.versions v [(c.date, commitMessages c)]⟩ := by
  have hvs : versionSwitch st c = ⟨v, insertA st.versions v []⟩ := by
    simp [versionSwitch, hrel, hcap]
  simp [stepCommit, hskip, hmain, hvs, lookupA_insertA_self, bucketUpdate_nil,
    insertA_insertA]

theorem versionSwitch_ne (st : PState) (c : Commit) (z : String)
    (hz : st.version ≠ z)
    (hcap : containsS c.msg "release" = true →
      ∀ v, releaseCapture c.msg = some v → v ≠ z) :
    (versionSwitch st c).version ≠ z ∧
    lookupA (versionSwitch st c).versions z = lookupA st.versions z := by
  unfold versionSwitch
  by_cases hr : containsS c.msg "release"
  · cases hc : releaseCapture c.msg with
    | none => simp [hr, hc, hz]
    | some v =>
      have hv := hcap hr v hc
      simp [hr, hc, hv, lookupA_insertA_ne st.versions v z [] hv]
  · simp [hr, hz]

theorem stepCommit_lookup_ne (st st' : PState) (c : Commit) (z : String)
    (hz : st.version ≠ z)
    (hcap : skipRe c.msg = false → c.in_main_branch = true →
      containsS c.msg "release" = true →
      ∀ v, releaseCapture c.msg = some v → v ≠ z)
    (hstep : stepCommit st c = some st') :
    st'.version ≠ z ∧ lookupA st'.versions z = lookupA st.versions z := by
  cases hskip : skipRe c.msg || !c.in_main_branch with
  | true => rw [stepCommit_skip st c hskip] at hstep; cases hstep; exact ⟨hz, rfl⟩
  | false =>
    have hsf : skipRe c.msg = false ∧ c.in_main_branch = true := by
      constructor
      · cases h : skipRe c.msg
        · rfl
        · rw [h] at hskip; simp at hskip
      · cases h : c.in_main_branch
        · rw [h] at hskip; simp at hskip
        · rfl
    obtain ⟨hv₁, hl₁⟩ := versionSwitch_ne st c z hz (hcap hsf.1 hsf.2)
    simp only [stepCommit, hskip, Bool.false_eq_true, if_false] at hstep
    cases hlook : lookupA (versionSwitch st c).versions (versionSwitch st c).version with
    | none => rw [hlook] at hstep; cases hstep
    | some dates =>
      rw [hlook] at hstep
      cases hstep
      exact ⟨hv₁, by rw [lookupA_insertA_ne _ _ _ _ hv₁, hl₁]⟩

theorem go_lookup_ne (l : List Commit) (st : PState) (z : String)
    (hz : st.version ≠ z)
    (hcap : ∀ c ∈ l, isMarker c = true →
      ∀ v, releaseCapture c.msg = some v → v ≠ z)
    (hinv : (lookupA st.versions st.version).isSome = true) :
    ∃ st', go st l = some st' ∧ lookupA st'.versions z = lookupA st.versions z := by
  induction l generalizing st with
  | nil => exact ⟨st, rfl, rfl⟩
  | cons c t ih =>
    obtain ⟨st₁, hstep, hinv₁⟩ := stepCommit_some_inv st c hinv
    have hcap₁ : skipRe c.msg = false → c.in_main_branch = true →
        containsS c.msg "release" = true →
        ∀ v, releaseCapture c.msg = some v → v ≠ z := by
      intro hs hm hr v hv
      exact hcap c (List.mem_cons_self c t) (by simp [isMarker, hs, hm, hr, hv]) v hv
    obtain ⟨hv₁, hl₁⟩ := stepCommit_lookup_ne st st₁ c z hz hcap₁ hstep
    obtain ⟨st₂, hgo, hl₂⟩ := ih st₁ hv₁
      (fun c' hc' => hcap c' (List.mem_cons_of_mem c hc')) hinv₁
    exact ⟨st₂, by simp [go, hstep, hgo], by rw [hl₂, hl₁]⟩

theorem stepCommit_key_mono (st st' : PState) (c : Commit) (z : String)
    (hstep : stepCommit st c = some st')
    (h : (lookupA st.versions z).isSome = true) :
    (lookupA st'.versions z).isSome = true := by
  cases hskip : skipRe c.msg || !c.in_main_branch with
  | true => rw [stepCommit_skip st c hskip] at hstep; cases hstep; exact h
  | false =>
    have hvs : (lookupA (versionSwitch st c).versions z).isSome = true := by
      unfold versionSwitch
      by_cases hr : containsS c.msg "release"
      · cases hc : releaseCapture c.msg with
        | none => simpa [hr, hc]
        | some v => simp [hr, hc, lookupA_isSome_insertA _ _ _ _ h]
      · simpa [hr]
    simp only [stepCommit, hskip, Bool.false_eq_true, if_false] at hstep
    cases hlook : lookupA (versionSwitch st c).versions (versionSwitch st c).version with
    | none => rw [hlook] at hstep; cases hstep
    | some dates =>
      rw [hlook] at hstep
      cases hstep
      exact lookupA_isSome_insertA _ _ _ _ hvs

theorem go_key_mono (l : List Commit) (st : PState) (z : String)
    (hinv : (lookupA st.versions st.version).isSome = true)
    (hz : (lookupA st.versions z).isSome = true) :
    ∃ st', go st l = some st' ∧ (lookupA st'.versions z).isSome = true := by
  induction l generalizing st with
  | nil => exact ⟨st, rfl, hz⟩
  | cons c t ih =>
    obtain ⟨st₁, hstep, hinv₁⟩ := stepCommit_some_inv st c hinv
    obtain ⟨st₂, hgo, hz₂⟩ := ih st₁ hinv₁ (stepCommit_key_mono st st₁ c z hstep hz)
    exact ⟨st₂, by simp [go, hstep, hgo], hz₂⟩

theorem dropWhile_head_false (p : α → Bool) (l : List α) (c : α) (t : List α)
    (h : l.dropWhile p = c :: t) : p c = false := by
  induction l with
  | nil => simp [List.dropWhile] at h
  | cons a l ih =>
    by_cases hp : p a
    · rw [List.dropWhile_cons] at h
      simp only [hp, if_true] at h
      exact ih h
    · rw [List.dropWhile_cons] at h
      simp only [hp, if_false] at h
      cases h
      simpa using hp

/-! ## Claim C8 -/

/-- Claim C8 (amended): for every commit list the finished ledger contains
the key `"0.0.0"`; and provided no release marker of the list captures the
label `"0.0.0"` itself (a marker such as `release/0.0.0` resets the entry),
the `"0.0.0"` entry holds exactly the contributions of the non-skipped
commits preceding the first valid release marker in traversal order. -/
theorem C8_implicit_zero_version_entry :
    ∀ l : List Commit,
      (∃ L, parse_commits l = some L ∧ (lookupA L "0.0.0").isSome = true)
      ∧ ((∀ c ∈ l, isMarker c = true → releaseCapture c.msg ≠ some "0.0.0") →
          ∃ L Lp, parse_commits l = some L
            ∧ parse_commits (l.takeWhile (fun c => !isMarker c)) = some Lp
            ∧ lookupA L "0.0.0" = lookupA Lp "0.0.0") := by
  intro l
  constructor
  · obtain ⟨st, hgo, hz⟩ := go_key_mono l initState "0.0.0" initState_inv (by decide)
    exact ⟨st.versions, by simp [parse_commits, hgo], hz⟩
  · intro hyp
    have hsplit : l.takeWhile (fun c => !isMarker c) ++ l.dropWhile (fun c => !isMarker c) = l :=
      List.takeWhile_append_dropWhile (fun c => !isMarker c) l
    obtain ⟨stp, hgop, hinvp⟩ := go_some_inv (l.takeWhile (fun c => !isMarker c))
      initState initState_inv
    cases hrest : l.dropWhile (fun c => !isMarker c) with
    | nil =>
      have hl : l.takeWhile (fun c => !isMarker c) = l := by
        conv_rhs => rw [← hsplit]
        rw [hrest, List.append_nil]
      refine ⟨stp.versions, stp.versions, ?_, ?_, rfl⟩
      · conv_lhs => rw [← hl]
        simp [parse_commits, hgop]
      · simp [parse_commits, hgop]
    | cons c t =>
      have hmem : ∀ c', c' ∈ l.dropWhile (fun c => !isMarker c) → c' ∈ l := by
        intro c' hc'
        rw [← hsplit]
        exact List.mem_append_right _ hc'
      have hmarkb : (fun c => !isMarker c) c = false :=
        dropWhile_head_false _ l c t hrest
      have hmark : isMarker c = true := by simpa using hmarkb
      have hmarkc := hmark
      simp only [isMarker, Bool.and_eq_true, Bool.not_eq_true'] at hmarkc
      obtain ⟨⟨⟨hs, hm⟩, hr⟩, hcs⟩ := hmarkc
      obtain ⟨v, hv⟩ := Option.isSome_iff_exists.mp hcs
      have hvz : v ≠ "0.0.0" := by
        intro hcontra
        subst hcontra
        exact hyp c (hmem c (by rw [hrest]; exact List.mem_cons_self c t)) hmark hv
      have hstep := stepCommit_marker stp c v hs hm hr hv
      have hinv₁ : (lookupA (insertA stp.versions v [(c.date, commitMessages c)]) v).isSome
          = true := by simp [lookupA_insertA_self]
      obtain ⟨st₂, hgo₂, hl₂⟩ := go_lookup_ne t
        ⟨v, insertA stp.versions v [(c.date, commitMessages c)]⟩ "0.0.0" hvz
        (fun c' hc' himv v' hv' hcontra => by
          subst hcontra
          exact hyp c' (hmem c' (by rw [hrest]; exact List.mem_cons_of_mem c hc')) himv hv')
        hinv₁
      have hgoall : go initState l = some st₂ := by
        rw [← hsplit, go_append, hgop, hrest]
        simp [go, hstep, hgo₂]
      refine ⟨st₂.versions, stp.versions, by simp [parse_commits, hgoall],
        by simp [parse_commits, hgop], ?_⟩
      rw [hl₂]
      exact lookupA_insertA_ne stp.versions v "0.0.0" _ hvz

/-- Counterexample to C8 as stated: in the list below the only release
marker is the second commit, so the claim predicts that the `"0.0.0"`
entry holds the first commit's contribution; but the marker captures
`"0.0.0"` itself and resets the entry, which ends up holding the marker
commit instead. -/
theorem C8_counterexample :
    parse_commits [⟨"fix a", "2024-01-01", true⟩, ⟨"release/0.0.0", "2024-01-02", true⟩]
      = some [("0.0.0", [("2024-01-02", ["release/0.0.0"])])]
    ∧ [⟨"fix a", "2024-01-01", true⟩, ⟨"release/0.0.0", "2024-01-02", true⟩].takeWhile
        (fun c => !isMarker c) = [⟨"fix a", "2024-01-01", true⟩]
    ∧ parse_commits [⟨"fix a", "2024-01-01", true⟩]
      = some [("0.0.0", [("2024-01-01", ["Fix: a"])])]
    ∧ lookupA [("0.0.0", [("2024-01-02", ["release/0.0.0"])])] "0.0.0"
      ≠ lookupA [("0.0.0", [("2024-01-01", ["Fix: a"])])] "0.0.0" :=
  ⟨by decide, by decide, by decide, by decide⟩

/-- Witness for C8 on a list whose markers never capture `"0.0.0"`. -/
theorem C8_witness :
    (∀ c ∈ [⟨"fix a", "2024-01-01", true⟩, ⟨"release/1.2.3", "2024-01-02", true⟩,
        ⟨"fix b", "2024-01-03", true⟩], isMarker c = true →
        releaseCapture (Commit.msg c) ≠ some "0.0.0")
    ∧ ∃ L Lp, parse_commits [⟨"fix a", "2024-01-01", true⟩,
        ⟨"release/1.2.3", "2024-01-02", true⟩, ⟨"fix b", "2024-01-03", true⟩] = some L
      ∧ parse_commits ([⟨"fix a", "2024-01-01", true⟩, ⟨"release/1.2.3", "2024-01-02", true⟩,
          ⟨"fix b", "2024-01-03", true⟩].takeWhile (fun c => !isMarker c)) = some Lp
      ∧ lookupA L "0.0.0" = lookupA Lp "0.0.0" :=
  ⟨by decide,
   (C8_implicit_zero_version_entry [⟨"fix a", "2024-01-01", true⟩,
      ⟨"release/1.2.3", "2024-01-02", true⟩, ⟨"fix b", "2024-01-03", true⟩]).2 (by decide)⟩

/-! ## Claim C4 -/

/-- Claim C4 evaluated at a failing input: for a multi-line commit the code
checks the raw line for membership but the bucket holds parsed messages,
so the two identical lines `"fix a"` both get appended and the finished
(version, date) bucket contains the identical string `"Fix: a"` twice. -/
theorem C4_multiline_dedup_failure :
    parse_commits [⟨"fix a\nfix a", "2024-01-01", true⟩]
      = some [("0.0.0", [("2024-01-01", ["Fix: a", "Fix: a"])])]
    ∧ ¬ (["Fix: a", "Fix: a"] : List String).Nodup :=
  ⟨by decide, by decide⟩

/-! ## Claim C6 -/

/-- Counterexample to C6 as stated: on the claim's two-commit input the
rendered bullet is not `"Add: new feature (Related to issue: #5)"` — the
replacement chain also rewrites `"feature "` inside the already-built
message and removing `"#5"` leaves a double space. -/
theorem C6_counterexample :
    parse_commits [⟨"Add new feature #5", "2024-01-02", true⟩,
        ⟨"merge branch x", "2024-01-03", true⟩]
      = some [("0.0.0", [("2024-01-02", ["Add: new Feature:  (Related to issue: #5)"]),
          ("2024-01-03", [])])]
    ∧ containsS (print_md_commits "repo"
        [("0.0.0", [("2024-01-02", ["Add: new Feature:  (Related to issue: #5)"]),
            ("2024-01-03", [])])] false)
        "Add: new feature (Related to issue: #5)" = false :=
  ⟨by decide, by decide⟩

/-- Claim C6 (amended): on the claim's input, combined rendering outputs
exactly one version section with exactly one bullet, whose text is
`"Add: new Feature:  (Related to issue: #5)"` (the `"feature "` rule of
the replacement chain re-fires inside the message and the removal of
`"#5"` leaves a double space), and no text of the merge commit appears. -/
theorem C6_amended_end_to_end :
    parse_commits [⟨"Add new feature #5", "2024-01-02", true⟩,
        ⟨"merge branch x", "2024-01-03", true⟩]
      = some [("0.0.0", [("2024-01-02", ["Add: new Feature:  (Related to issue: #5)"]),
          ("2024-01-03", [])])]
    ∧ print_md_commits "repo"
        [("0.0.0", [("2024-01-02", ["Add: new Feature:  (Related to issue: #5)"]),
            ("2024-01-03", [])])] false
      = "# repo\n\n## Version 0.0.0\n  - Add: new Feature:  (Related to issue: #5)\n"
    ∧ containsS "# repo\n\n## Version 0.0.0\n  - Add: new Feature:  (Related to issue: #5)\n"
        "merge" = false
    ∧ containsS "# repo\n\n## Version 0.0.0\n  - Add: new Feature:  (Related to issue: #5)\n"
        "branch" = false :=
  ⟨by decide, by decide, by decide, by decide⟩

/-! ## Claim C7 -/

/-- Counterexample to C7 as stated: with a non-empty date `2024-01-02`
rendered before an empty date `2024-01-01`, the placeholder section is
headed by the empty date itself (`2024-01-01`), not by the previously
printed heading (`2024-01-02`) as the claim requires. -/
theorem C7_counterexample :
    print_md_commits "r" [("0.0.0", [("2024-01-02", ["Fix: a"]), ("2024-01-01", [])])] true
      = "# r\n\n## Version 0.0.0\n\n### Date: 2024-01-02\n    - Fix: a\n\n### Date: 2024-01-01\n    - Bugfixes and improvements\n"
    ∧ containsS
        "# r\n\n## Version 0.0.0\n\n### Date: 2024-01-02\n    - Fix: a\n\n### Date: 2024-01-01\n    - Bugfixes and improvements\n"
        "### Date: 2024-01-01\n    - Bugfixes and improvements" = true
    ∧ containsS
        "# r\n\n## Version 0.0.0\n\n### Date: 2024-01-02\n    - Fix: a\n\n### Date: 2024-01-01\n    - Bugfixes and improvements\n"
        "### Date: 2024-01-02\n    - Bugfixes and improvements" = false :=
  ⟨by decide, by decide, by decide⟩

/-- Claim C7 (amended): in date-grouped rendering, a date with an empty
message list prints a heading with its own date label — `last_date` is
reassigned to the current date before the emptiness test, so the previous
heading (the second component of the threaded state) is never used — and
then the single fixed placeholder bullet. -/
theorem C7_empty_date_prints_own_heading :
    ∀ (dates : DateBucket) (p : String × String) (d : String),
      lookupA dates d = some [] →
      mdDateSection dates p d =
        (p.1 ++ "\n### Date: " ++ d ++ "\n" ++ "    - Bugfixes and improvements\n", d) := by
  intro dates p d h
  simp [mdDateSection, lookupD, h]

/-- Witness for C7: the previous heading in the threaded state is
`2024-01-02`, yet the emitted heading is the empty date's own label. -/
theorem C7_witness :
    lookupA [("2024-01-01", ([] : List String))] "2024-01-01" = some [] ∧
    mdDateSection [("2024-01-01", [])] ("# r\n", "2024-01-02") "2024-01-01" =
      ("# r\n" ++ "\n### Date: " ++ "2024-01-01" ++ "\n" ++ "    - Bugfixes and improvements\n",
       "2024-01-01") :=
  ⟨by decide, C7_empty_date_prints_own_heading [("2024-01-01", [])]
    ("# r\n", "2024-01-02") "2024-01-01" (by decide)⟩

/-! ## Claim C9 -/

/-- Counterexample to C9 as stated: `write_md_commits` opens the output
with mode `"w"` (truncating it) and writes incrementally; a failure after
the first chunk leaves the destination holding `"# r"` — neither its
previous contents nor the complete output, i.e. a partial write. -/
theorem C9_counterexample :
    writeChunks "r" [("0.0.0", [("2024-01-01", ["Fix: a"])])] false
      = ["# r", "\n## Version 0.0.0", "\n  - Fix: a"]
    ∧ fileAfterFailure "old content" ["# r", "\n## Version 0.0.0", "\n  - Fix: a"] 1 = "# r"
    ∧ ("# r" : String) ≠ "old content"
    ∧ ("# r" : String) ≠ "# r\n## Version 0.0.0\n  - Fix: a" :=
  ⟨by decide, by decide, by decide, by decide⟩

/-- Claim C9 (amended): every error reported through `log_exception`
terminates with the same exit status 1 (whatever the `code` argument)
after emitting exactly one critical message; but there is no atomicity
for the markdown file sink: a failure mid-write leaves the truncated
destination holding exactly the chunks written so far, as in the concrete
partial write below. -/
theorem C9_uniform_exit_but_partial_writes :
    (∀ (msg : String) (code : Nat), (log_exception msg code).1 = 1
      ∧ (log_exception msg code).2.length = 1)
    ∧ fileAfterFailure "previous"
        (writeChunks "repo" [("0.0.0", [("2024-01-02", ["Add: x"])])] false) 2
      = "# repo\n## Version 0.0.0"
    ∧ ("# repo\n## Version 0.0.0" : String) ≠ "previous" :=
  ⟨fun msg code => ⟨rfl, rfl⟩, by decide, by decide⟩

/-! ## Lexicographic-order and insertion-sort lemmas -/

theorem lexLe_total (a : List Char) : ∀ b, lexLe a b = true ∨ lexLe b a = true := by
  induction a with
  | nil => intro b; left; rfl
  | cons x xs ih =>
    intro b
    cases b with
    | nil => right; rfl
    | cons y ys =>
      rcases Nat.lt_trichotomy x.toNat y.toNat with h | h | h
      · left; simp [lexLe, h]
      · have h1 : ¬ x.toNat < y.toNat := by omega
        have h2 : ¬ y.toNat < x.toNat := by omega
        rcases ih ys with hl | hl
        · left; simp [lexLe, h1, h2, hl]
        · right; simp [lexLe, h1, h2, hl]
      · right; simp [lexLe, h]

theorem lexLe_trans : ∀ (a b c : List Char),
    lexLe a b = true → lexLe b c = true → lexLe a c = true
  | [], _, _, _, _ => rfl
  | _ :: _, [], _, hab, _ => by simp [lexLe] at hab
  | _ :: _, _ :: _, [], _, hbc => by simp [lexLe] at hbc
  | x :: xs, y :: ys, z :: zs, hab, hbc => by
    simp only [lexLe] at hab hbc ⊢
    rcases Nat.lt_trichotomy x.toNat y.toNat with h1 | h1 | h1
    · rcases Nat.lt_trichotomy y.toNat z.toNat with h2 | h2 | h2
      · simp [Nat.lt_trans h1 h2]
      · have : x.toNat < z.toNat := by omega
        simp [this]
      · have hyz : ¬ y.toNat < z.toNat := by omega
        simp [hyz, h2] at hbc
    · rcases Nat.lt_trichotomy y.toNat z.toNat with h2 | h2 | h2
      · have : x.toNat < z.toNat := by omega
        simp [this]
      · have e1 : ¬ x.toNat < y.toNat := by omega
        have e2 : ¬ y.toNat < x.toNat := by omega
        have e3 : ¬ y.toNat < z.toNat := by omega
        have e4 : ¬ z.toNat < y.toNat := by omega
        have e5 : ¬ x.toNat < z.toNat := by omega
        have e6 : ¬ z.toNat < x.toNat := by omega
        simp only [e1, e2, if_false] at hab
        simp only [e3, e4, if_false] at hbc
        simp only [e5, e6, if_false]
        exact lexLe_trans xs ys zs hab hbc
      · have hyz : ¬ y.toNat < z.toNat := by omega
        simp [hyz, h2] at hbc
    · have hxy : ¬ x.toNat < y.toNat := by omega
      simp [hxy, h1] at hab

theorem insSorted_perm (le : α → α → Bool) (x : α) (l : List α) :
    (insSorted le x l).Perm (x :: l) := by
  induction l with
  | nil => exact List.Perm.refl _
  | cons y t ih =>
    by_cases h : le x y = true
    · simp only [insSorted, h, if_true]
      exact List.Perm.refl _
    · simp only [insSorted, h, if_false]
      exact (ih.cons y).trans (List.Perm.swap x y t)

theorem insSorted_pairwise (le : α → α → Bool)
    (htot : ∀ a b, le a b = true ∨ le b a = true)
    (htrans : ∀ a b c, le a b = true → le b c = true → le a c = true)
    (x : α) (l : List α)
    (h : l.Pairwise (fun a b => le a b = true)) :
    (insSorted le x l).Pairwise (fun a b => le a b = true) := by
  induction l with
  | nil => simp [insSorted]
  | cons y t ih =>
    rcases List.pairwise_cons.mp h with ⟨hy, ht⟩
    by_cases hxy : le x y = true
    · simp only [insSorted, hxy, if_true]
      refine List.pairwise_cons.mpr ⟨?_, h⟩
      intro b hb
      rcases List.mem_cons.mp hb with hby | hb
      · rw [hby]; exact hxy
      · exact htrans x y b hxy (hy b hb)
    · simp only [insSorted, hxy, if_false]
      refine List.pairwise_cons.mpr ⟨?_, ih ht⟩
      intro b hb
      have hb₁ : b ∈ x :: t := (insSorted_perm le x t).mem_iff.mp hb
      rcases List.mem_cons.mp hb₁ with hbx | hb₁
      · rcases htot x y with h₁ | h₁
        · exact absurd h₁ hxy
        · rw [hbx]; exact h₁
      · exact hy b hb₁

theorem insSortBy_perm (le : α → α → Bool) (l : List α) : (insSortBy le l).Perm l := by
  induction l with
  | nil => exact List.Perm.refl _
  | cons x t ih => exact (insSorted_perm le x _).trans (ih.cons x)

theorem insSortBy_pairwise (le : α → α → Bool)
    (htot : ∀ a b, le a b = true ∨ le b a = true)
    (htrans : ∀ a b c, le a b = true → le b c = true → le a c = true)
    (l : List α) :
    (insSortBy le l).Pairwise (fun a b => le a b = true) := by
  induction l with
  | nil => simp [insSortBy]
  | cons x t ih => exact insSorted_pairwise le htot htrans x _ ih

theorem verLe_total (a b : String) : verLe a b = true ∨ verLe b a = true :=
  lexLe_total (get_version b).data (get_version a).data

theorem verLe_trans (a b c : String) (hab : verLe a b = true) (hbc : verLe b c = true) :
    verLe a c = true :=
  lexLe_trans (get_version c).data (get_version b).data (get_version a).data hbc hab

theorem get_version_eq_spec (s : String) : get_version s = specVersionKey s := by
  unfold get_version specVersionKey
  cases h : splitOnC '.' s.data with
  | nil => simp
  | cons a t =>
    cases t with
    | nil => simp
    | cons b t₂ =>
      cases t₂ with
      | nil => simp
      | cons c t₃ => simp

/-! ## Claim C3 -/

/-- Claim C3: rendering orders the version labels by the normalised key of
`get_version` — split on `.`, up to three components, missing components
defaulting to `"0"`, each zero-padded to width 4 and joined into a
fixed-width dotted triple — descending (every label's key is `≥` the keys
after it, under code-point comparison), the rendered order being a
permutation of the ledger's keys; on the labels `2.0.0`, `10.0.0`,
`1.9.9` the rendering order is `10.0.0`, `2.0.0`, `1.9.9`. -/
theorem C3_versions_sorted_descending :
    (∀ s : String, get_version s = specVersionKey s)
    ∧ (∀ L : Ledger, (renderOrder L).Perm (keysA L))
    ∧ (∀ L : Ledger, (renderOrder L).Pairwise
        (fun a b => lexLe (get_version b).data (get_version a).data = true))
    ∧ print_md_commits "r"
        [("2.0.0", [("2024-01-01", ["a"])]), ("10.0.0", [("2024-01-01", ["b"])]),
         ("1.9.9", [("2024-01-01", ["c"])])] false
      = "# r\n\n## Version 10.0.0\n  - b\n\n## Version 2.0.0\n  - a\n\n## Version 1.9.9\n  - c\n" := by
  refine ⟨get_version_eq_spec, ?_, ?_, by decide⟩
  · intro L
    exact insSortBy_perm verLe (keysA L)
  · intro L
    exact insSortBy_pairwise verLe verLe_total verLe_trans (keysA L)

/-! ## Issue-regex characterisation lemmas -/

theorem hasTokenB_append_right (a b : List Char) (h : hasTokenB b = true) :
    hasTokenB (a ++ b) = true := by
  induction a with
  | nil => exact h
  | cons c t ih => simp [hasTokenB, ih]

theorem issueScan_isSome (l : List Char) : (issueScan l).isSome = hasTokenB l := by
  induction l with
  | nil => rfl
  | cons c rest ih =>
    cases hs : issueScan rest with
    | some r =>
      have : hasTokenB rest = true := by rw [← ih, hs]; rfl
      simp [issueScan, hs, hasTokenB, this]
    | none =>
      have hrest : hasTokenB rest = false := by rw [← ih, hs]; rfl
      cases htok : tokenHereB (c :: rest) with
      | true => simp [issueScan, hs, htok, hasTokenB, hrest]
      | false => simp [issueScan, hs, htok, hasTokenB, hrest]

theorem all_takeWhile_self (p : α → Bool) (l : List α) : (l.takeWhile p).all p = true := by
  induction l with
  | nil => rfl
  | cons a t ih =>
    by_cases h : p a
    · simp [List.takeWhile_cons, h, ih]
    · simp [List.takeWhile_cons, h]

theorem issueScan_decomp : ∀ (l r : List Char), issueScan l = some r →
    ∃ pre run post, l = pre ++ '#' :: run ++ post ∧ run ≠ []
      ∧ run.all Char.isDigit = true ∧ r = '#' :: run
      ∧ hasTokenB post = false ∧ (post.headD 'x').isDigit = false := by
  intro l
  induction l with
  | nil => intro r h; cases h
  | cons c rest ih =>
    intro r h
    cases hs : issueScan rest with
    | some r₀ =>
      have hr : r = r₀ := by
        simp only [issueScan, hs] at h
        exact (Option.some_inj.mp h).symm
      obtain ⟨pre, run, post, hsplit, hrun, hdig, hr₀, hpost, hhead⟩ := ih r₀ (by rw [hs])
      exact ⟨c :: pre, run, post, by rw [hsplit]; rfl, hrun, hdig,
        hr ▸ hr₀, hpost, hhead⟩
    | none =>
      simp only [issueScan, hs] at h
      cases htok : tokenHereB (c :: rest) with
      | false => rw [htok] at h; cases h
      | true =>
        rw [htok] at h
        simp only [if_true] at h
        cases hrest : rest with
        | nil => rw [hrest] at htok; cases htok
        | cons d rest' =>
          subst hrest
          simp only [tokenHereB, Bool.and_eq_true, beq_iff_eq] at htok
          obtain ⟨hc, hd⟩ := htok
          subst hc
          have hrtok : hasTokenB (d :: rest') = false := by
            rw [← issueScan_isSome, hs]; rfl
          refine ⟨[], (d :: rest').takeWhile Char.isDigit,
            (d :: rest').dropWhile Char.isDigit, ?_, ?_, ?_, ?_, ?_, ?_⟩
          · rw [List.nil_append]
            exact congrArg (fun l => '#' :: l)
              (List.takeWhile_append_dropWhile Char.isDigit (d :: rest')).symm
          · rw [List.takeWhile_cons]
            simp [hd]
          · exact all_takeWhile_self Char.isDigit (d :: rest')
          · exact (Option.some_inj.mp h).symm
          · cases hp : hasTokenB ((d :: rest').dropWhile Char.isDigit) with
            | false => rfl
            | true =>
              have hmono := hasTokenB_append_right ((d :: rest').takeWhile Char.isDigit)
                ((d :: rest').dropWhile Char.isDigit) hp
              rw [List.takeWhile_append_dropWhile Char.isDigit (d :: rest')] at hmono
              rw [hmono] at hrtok
              cases hrtok
          · cases hdp : (d :: rest').dropWhile Char.isDigit with
            | nil => decide
            | cons e t =>
              have := dropWhile_head_false Char.isDigit (d :: rest') e t hdp
              simpa using this

theorem firstLine_of_no_newline (l : List Char) (h : '\n' ∉ l) : firstLine l = l := by
  induction l with
  | nil => rfl
  | cons c t ih =>
    have hc : c ≠ '\n' := fun he => h (he ▸ List.mem_cons_self c t)
    have ht : '\n' ∉ t := fun hm => h (List.mem_cons_of_mem c hm)
    have hb : (c != '\n') = true := by simpa using hc
    simpa [firstLine, List.takeWhile_cons, hb] using ih ht

/-! ## Claim C5 -/

/-- Claim C5 (amended): for every newline-free message, the classifier's
issue extraction captures the RIGHTMOST `#`-digits token of the message,
with its maximal digit run (no token starts after it, and the run is not
followed by a further digit); it succeeds exactly when such a token
exists; when it captures `tok`, the result is the message with every
occurrence of `tok` removed and every `" :"` collapsed to `":"`, the
fixed suffix `" (Related to issue: tok)"` appended, and the replacement
chain applied; with no token the body is unchanged by this step. -/
theorem C5_issue_extraction :
    ∀ msg : String, '\n' ∉ msg.data →
      (hasTokenB msg.data = true → (issueCapture msg).isSome = true)
      ∧ (issueCapture msg = none →
          hasTokenB msg.data = false ∧ parse_message msg = applyReplacements msg)
      ∧ (∀ tok, issueCapture msg = some tok →
          (∃ pre run post, msg.data = pre ++ '#' :: run ++ post
            ∧ run ≠ [] ∧ run.all Char.isDigit = true ∧ tok.data = '#' :: run
            ∧ hasTokenB post = false ∧ (post.headD 'x').isDigit = false)
          ∧ parse_message msg =
              applyReplacements (replaceS (replaceS msg tok "") " :" ":"
                ++ " (Related to issue: " ++ tok ++ ")")) := by
  intro msg h
  have hfl : firstLine msg.data = msg.data := firstLine_of_no_newline msg.data h
  refine ⟨?_, ?_, ?_⟩
  · intro htok
    have hsome : (issueScan msg.data).isSome = true := by
      rw [issueScan_isSome]; exact htok
    obtain ⟨r, hr⟩ := Option.isSome_iff_exists.mp hsome
    simp [issueCapture, hfl, hr]
  · intro hcap
    have hnone : issueScan msg.data = none := by
      cases hs : issueScan msg.data with
      | none => rfl
      | some r => simp [issueCapture, hfl, hs] at hcap
    constructor
    · rw [← issueScan_isSome, hnone]; rfl
    · unfold parse_message
      rw [hcap]
  · intro tok hcap
    constructor
    · have hscan : issueScan msg.data = some tok.data := by
        cases hs : issueScan msg.data with
        | none => simp [issueCapture, hfl, hs] at hcap
        | some r =>
          have h₁ := hcap
          simp only [issueCapture, hfl, hs] at h₁
          have h₂ : (⟨r⟩ : String) = tok := Option.some_inj.mp h₁
          rw [← h₂]
      exact issueScan_decomp msg.data tok.data hscan
    · unfold parse_message
      rw [hcap]

/-- Counterexample to C5 as stated: in `"see #1 and #2"` the first token
is `#1`, but the greedy prefix of the pattern makes the capture the LAST
token `#2`, which is the one removed and referenced in the suffix. -/
theorem C5_counterexample :
    parse_message "see #1 and #2" = "see #1 and  (Related to issue: #2)"
    ∧ parse_message "see #1 and #2" ≠ "see  and #2 (Related to issue: #1)" :=
  ⟨by decide, by decide⟩

/-- Witness for C5 at a concrete message with one token. -/
theorem C5_witness :
    ('\n' ∉ ("a #23" : String).data)
    ∧ parse_message "a #23" =
        applyReplacements (replaceS (replaceS "a #23" "#23" "") " :" ":"
          ++ " (Related to issue: " ++ "#23" ++ ")") :=
  ⟨by decide, ((C5_issue_extraction "a #23" (by decide)).2.2 "#23" (by decide)).2⟩

/-! ## Claim C10 -/

/-- Claim C10: after processing any commit list the current version label
is a key of the ledger (it starts as `"0.0.0"` with an empty bucket, and
every version change installs its label), so the loop's dictionary
accesses never fail: `go` never returns `none` and `parse_commits` always
produces a ledger.  As every prefix of a commit list is itself a commit
list, this is the invariant at every step of the grouping. -/
theorem C10_current_version_always_key :
    ∀ commits : List Commit,
      ∃ st, go initState commits = some st
        ∧ (lookupA st.versions st.version).isSome = true
        ∧ parse_commits commits = some st.versions := by
  intro commits
  obtain ⟨st, hgo, hinv⟩ := go_some_inv commits initState initState_inv
  exact ⟨st, hgo, hinv, by simp [parse_commits, hgo]⟩

end Changelog
